import Mathlib

/-
  Verification development for the version-and-release tracking core of the
  repository: `shared/version.ts` (formatVersion, parseVersion,
  incrementVersion, calculateImpactScore, getImpactLevel) and the
  `VersionManager` ledger (migrateVersionFormat, updateVersion,
  createNewRelease, addChangelogEntry, addRelease).

  The embedding is shallow: JS numbers that are only ever non-negative
  integers become `Nat`; JS `parseInt`, whose result can be `NaN`, becomes
  `Option Int` with `none` standing for `NaN`; JS objects used as
  string-keyed maps become insertion-ordered association lists with the JS
  assignment semantics (assigning to an existing key updates the value in
  place, assigning to a fresh key appends at the end); `undefined`-able
  fields become `Option`.  The system clock (`new Date().toISOString()`)
  and the timestamp semantics of `new Date(s).getTime()` are passed in as
  explicit parameters (`now : String`, `dateTime : String → Int`).
-/

set_option maxHeartbeats 1000000

namespace Foundation

/-! ## Character helpers (ASCII facts used by the JS string builtins) -/

/-- Decimal digit test on a character, by code point. -/
def digitB (c : Char) : Bool := 48 ≤ c.toNat && c.toNat ≤ 57

/-- Whitespace skipped by JS `parseInt` before reading a number. -/
def wsB (c : Char) : Bool :=
  c.toNat == 32 || c.toNat == 9 || c.toNat == 10 || c.toNat == 13 ||
  c.toNat == 11 || c.toNat == 12

/-- Hexadecimal digit test, used once JS `parseInt` has seen a `0x` marker. -/
def hexDigitB (c : Char) : Bool :=
  digitB c || (97 ≤ c.toNat && c.toNat ≤ 102) || (65 ≤ c.toNat && c.toNat ≤ 70)

/-- Numeric value of a digit character (decimal or hexadecimal). -/
def digitNum (c : Char) : Nat :=
  if 97 ≤ c.toNat then c.toNat - 87
  else if 65 ≤ c.toNat then c.toNat - 55
  else c.toNat - 48

/-- The digit character for a value below ten. -/
def digitChar (d : Nat) : Char := Char.ofNat (48 + d)

/-! ## JS string primitives -/

/-- JS `String.prototype.split('.')` on the character list: the list of
dot-free chunks, with empty chunks kept (so `""` splits to `[""]` and
`"."` splits to `["", ""]`, as in JS). -/
def splitOnDot : List Char → List (List Char)
  | [] => [[]]
  | c :: rest =>
      let r := splitOnDot rest
      if c = '.' then [] :: r
      else
        match r with
        | [] => [[c]]
        | h :: t => (c :: h) :: t

/-- JS `s.split('.')` on strings. -/
def jsSplitDot (s : String) : List String :=
  (splitOnDot s.data).map (fun l => String.mk l)

/-- Does `hay` start with `needle`? -/
def startsWithChars : List Char → List Char → Bool
  | [], _ => true
  | _ :: _, [] => false
  | a :: as, b :: bs => a == b && startsWithChars as bs

/-- JS `hay.includes(needle)`: substring occurrence anywhere. -/
def hasSegChars (needle : List Char) : List Char → Bool
  | [] => needle.isEmpty
  | c :: t => startsWithChars needle (c :: t) || hasSegChars needle t

/-- JS `hay.includes(needle)` on strings. -/
def containsStr (hay needle : String) : Bool := hasSegChars needle.data hay.data

/-- JS `Array.prototype.join(' ')` for an array of strings. -/
def joinSpace : List String → String
  | [] => ""
  | [s] => s
  | s :: rest => s ++ " " ++ joinSpace rest

/-- JS `String.prototype.toLowerCase` (the inputs here are ASCII). -/
def lowerStr (s : String) : String := String.mk (s.data.map Char.toLower)

/-- Decimal digit list of a natural number, most significant digit first;
this is how JS stringifies the non-negative integers used by the version
code (template literals and `Number.prototype.toString`). -/
def natDigitsF : Nat → Nat → List Char
  | 0, n => [digitChar n]
  | f + 1, n =>
      if n < 10 then [digitChar n]
      else natDigitsF f (n / 10) ++ [digitChar (n % 10)]

/-- Decimal digit list via structural fuel recursion (`n` itself is always
enough fuel, see `natDigits_eq` for the intended recurrence). -/
def natDigits (n : Nat) : List Char := natDigitsF n n

/-- JS `s.padStart(k, '0')` at the character-list level. -/
def padZeros (k : Nat) (l : List Char) : List Char :=
  List.replicate (k - l.length) '0' ++ l

/-! ## JS `parseInt` (no explicit radix), returning `none` for `NaN` -/

/-- Leading-sign step of JS `parseInt`. -/
def stripSign (cs : List Char) : Int × List Char :=
  match cs with
  | [] => (1, [])
  | c :: t =>
      if c = '-' then (-1, t)
      else if c = '+' then (1, t)
      else (1, c :: t)

/-- Radix-detection step of JS `parseInt` without an explicit radix: a
leading `0x`/`0X` switches to base 16, otherwise base 10. -/
def stripHex (cs : List Char) : Nat × List Char :=
  match cs with
  | c0 :: c1 :: t =>
      if c0 = '0' ∧ (c1 = 'x' ∨ c1 = 'X') then (16, t) else (10, c0 :: c1 :: t)
  | _ => (10, cs)

/-- Digit test for the detected radix. -/
def radixDigitB (r : Nat) (c : Char) : Bool :=
  if r = 16 then hexDigitB c else digitB c

/-- Value of a digit chunk read in radix `r`, most significant first. -/
def chunkVal (r : Nat) (ds : List Char) : Nat :=
  ds.foldl (fun a c => a * r + digitNum c) 0

/-- JS `parseInt(s)` with no radix argument: skip whitespace, read an
optional sign, detect a hex marker, take the longest digit chunk; an empty
chunk gives `NaN`, modelled as `none`. -/
def jsParseInt (s : String) : Option Int :=
  let cs1 := s.data.dropWhile wsB
  let sc := stripSign cs1
  let rc := stripHex sc.2
  let ds := rc.2.takeWhile (radixDigitB rc.1)
  if ds = [] then none
  else some (sc.1 * (chunkVal rc.1 ds : Nat))

/-! ## Data model of `shared/version.ts` -/

/-- The record returned by `parseVersion`; each field is the JS `parseInt`
of a segment, so `none` models `NaN`. -/
structure ParsedVersion where
  major : Option Int
  minor : Option Int
  update : Option Int
  build : Option Int
deriving DecidableEq, Repr

/-- The `Release` interface.  `type` is kept as a string because
`calculateImpactScore` explicitly handles unknown type tags; `technical`
and `impactScore` are the optional fields of the interface. -/
structure Release where
  version : String
  date : String
  title : String
  type : String
  summary : String
  changes : List String
  technical : Option (List String)
  impactScore : Option Nat
deriving DecidableEq, Repr

/-- The `VersionInfo` interface.  `changelog` and `releases` are JS objects
used as string-keyed maps, modelled as insertion-ordered association
lists; `releases` is optional in the interface. -/
structure VersionInfo where
  version : String
  major : Nat
  minor : Nat
  update : Nat
  build : Nat
  changelog : List (String × String)
  releases : Option (List (String × Release))
deriving DecidableEq, Repr

/-- The four increment type tags accepted by `incrementVersion`. -/
inductive IncType where
  | major
  | minor
  | update
  | build
deriving DecidableEq, Repr

/-! ## Operations of `shared/version.ts` -/

/-- `formatVersion(major, minor, update, build?)`: major unpadded, minor
padded to 2, update and build padded to 3, joined with dots; the build
part is present exactly when the argument is. -/
def formatVersion (major minor upd : Nat) (build : Option Nat) : String :=
  match build with
  | some b =>
      String.mk (natDigits major ++ '.' :: padZeros 2 (natDigits minor) ++
        '.' :: padZeros 3 (natDigits upd) ++ '.' :: padZeros 3 (natDigits b))
  | none =>
      String.mk (natDigits major ++ '.' :: padZeros 2 (natDigits minor) ++
        '.' :: padZeros 3 (natDigits upd))

/-- The segment fed to `parseInt` for position `i`: `parts[i] || '0'`,
so a missing or empty segment falls back to `"0"`. -/
def segOr0 (parts : List String) (i : Nat) : String :=
  if parts.getD i "" = "" then "0" else parts.getD i ""

/-- `parseVersion` after the split: `parseInt` of each of the first four
segments with the `|| '0'` fallback. -/
def parseVersionParts (parts : List String) : ParsedVersion where
  major := jsParseInt (segOr0 parts 0)
  minor := jsParseInt (segOr0 parts 1)
  update := jsParseInt (segOr0 parts 2)
  build := jsParseInt (segOr0 parts 3)

/-- `parseVersion(version)`: split on `.` and parse the segments. -/
def parseVersion (version : String) : ParsedVersion :=
  parseVersionParts (jsSplitDot version)

/-- `incrementVersion(current, type)`: bump one component, reset the ones
below it, and re-derive the `version` string with all four parts. -/
def incrementVersion (current : VersionInfo) (ty : IncType) : VersionInfo :=
  let nv :=
    match ty with
    | .major => { current with major := current.major + 1, minor := 0, update := 0, build := 0 }
    | .minor => { current with minor := current.minor + 1, update := 0, build := 0 }
    | .update => { current with update := current.update + 1, build := 0 }
    | .build => { current with build := current.build + 1 }
  { nv with version := formatVersion nv.major nv.minor nv.update (some nv.build) }

/-- Base points of `calculateImpactScore` per release type; the source
indexes an object literal and falls back to 0 with `|| 0`. -/
def typeScore (t : String) : Nat :=
  if t = "major" then 100
  else if t = "feature" then 70
  else if t = "update" then 40
  else if t = "fix" then 20
  else 0

/-- The fixed keyword list of `calculateImpactScore`. -/
def highImpactKeywords : List String :=
  ["security", "performance", "authentication", "database", "api",
   "integration", "ui", "ux", "accessibility", "optimization",
   "architecture", "framework", "migration", "breaking"]

/-- The lowercased text blob scanned for keywords:
`(title + ' ' + summary + ' ' + changes.join(' ') + ' ' + (technical?.join(' ') || '')).toLowerCase()`. -/
def allTextOf (r : Release) : String :=
  lowerStr (r.title ++ " " ++ r.summary ++ " " ++ joinSpace r.changes ++ " " ++
    (match r.technical with | some t => joinSpace t | none => ""))

/-- `calculateImpactScore(release)`: type base + 5 per change + 3 per
technical entry + 10 per keyword found in the text blob, capped at 200. -/
def calculateImpactScore (release : Release) : Nat :=
  let base := typeScore release.type
  let s1 := base + release.changes.length * 5
  let s2 := s1 + (match release.technical with | some t => t.length * 3 | none => 0)
  let allText := allTextOf release
  let s3 := highImpactKeywords.foldl (fun sc k => if containsStr allText k then sc + 10 else sc) s2
  min s3 200

/-- The record returned by `getImpactLevel`. -/
structure ImpactInfo where
  level : String
  color : String
  description : String
deriving DecidableEq, Repr

/-- `getImpactLevel(score)`: tier by closed lower bounds 150/100/60/30. -/
def getImpactLevel (score : Int) : ImpactInfo :=
  if 150 ≤ score then
    ⟨"Critical", "text-red-600 dark:text-red-400", "Major system changes with significant impact"⟩
  else if 100 ≤ score then
    ⟨"High", "text-orange-600 dark:text-orange-400", "Important updates affecting core functionality"⟩
  else if 60 ≤ score then
    ⟨"Medium", "text-yellow-600 dark:text-yellow-400", "Notable improvements and enhancements"⟩
  else if 30 ≤ score then
    ⟨"Low", "text-blue-600 dark:text-blue-400", "Minor fixes and small improvements"⟩
  else
    ⟨"Minimal", "text-gray-600 dark:text-gray-400", "Small maintenance updates"⟩

/-! ## JS object maps as insertion-ordered association lists -/

/-- JS `m[k] = v` on a string-keyed object: update in place if the key is
present, append at the end otherwise. -/
def recSet {α : Type} (m : List (String × α)) (k : String) (v : α) : List (String × α) :=
  match m with
  | [] => [(k, v)]
  | (k', v') :: t => if k' = k then (k, v) :: t else (k', v') :: recSet t k v

/-- JS property read `m[k]` on a string-keyed object. -/
def recGet {α : Type} (m : List (String × α)) (k : String) : Option α :=
  match m with
  | [] => none
  | (k', v') :: t => if k' = k then some v' else recGet t k

/-- JS `delete m[k]`. -/
def recDelete {α : Type} (m : List (String × α)) (k : String) : List (String × α) :=
  m.filter (fun e => e.1 != k)

/-- The key list of an object, in insertion order (JS `Object.keys`). -/
def recKeys {α : Type} (m : List (String × α)) : List String := m.map Prod.fst

/-! ## The persisted document and `VersionManager.migrateVersionFormat` -/

/-- The raw parsed shape of the persisted `version.json` before migration:
as `VersionInfo`, except that the `build` field may still be absent (the
one absence `migrateVersionFormat` explicitly repairs). -/
structure RawDoc where
  version : String
  major : Nat
  minor : Nat
  update : Nat
  build : Option Nat
  changelog : List (String × String)
  releases : Option (List (String × Release))
deriving DecidableEq, Repr

/-- The trivial injection of a migrated document back into the raw shape
(a migrated document always carries a `build` field). -/
def VersionInfo.toRaw (v : VersionInfo) : RawDoc :=
  ⟨v.version, v.major, v.minor, v.update, some v.build, v.changelog, v.releases⟩

/-- The 3-to-4-part key rewrite of the migration: append `.000` exactly
when the string has three dot-separated parts. -/
def migrateKey (k : String) : String :=
  if (jsSplitDot k).length = 3 then k ++ ".000" else k

/-- Migration of one release record: fix up its `version` field. -/
def migrateRelease (r : Release) : Release :=
  { r with version := migrateKey r.version }

/-- Rebuild of an object by `Object.entries(m).forEach(... out[f k] = g v)`:
a left fold of JS assignments into a fresh object. -/
def migrateRecord {α : Type} (f : String → String) (g : α → α)
    (m : List (String × α)) : List (String × α) :=
  m.foldl (fun acc e => recSet acc (f e.1) (g e.2)) []

/-- The top-level `version` rewrite of the migration: a truthy (non-empty)
3-part version string gets `.000` appended. -/
def migrateTop (v : String) : String :=
  if v ≠ "" ∧ (jsSplitDot v).length = 3 then v ++ ".000" else v

/-- `VersionManager.migrateVersionFormat(versionData)`: default `build` to
0, append `.000` to a truthy 3-part top-level `version`, rewrite the keys
and nested `version` fields of `releases`, and rewrite the keys of
`changelog`. -/
def migrateVersionFormat (d : RawDoc) : VersionInfo where
  version := migrateTop d.version
  major := d.major
  minor := d.minor
  update := d.update
  build := d.build.getD 0
  changelog := migrateRecord migrateKey id d.changelog
  releases := d.releases.map (migrateRecord migrateKey migrateRelease)

/-- A concrete already-migrated document, used as a witness input. -/
def sampleMigratedDoc : RawDoc :=
  ⟨"1.02.003.000", 1, 2, 3, some 0, [("1.02.003.000", "x")],
   some [("1.02.003.000",
          ⟨"1.02.003.000", "2025-01-01T00:00:00.000Z", "T", "fix", "s", ["c"], none, some 20⟩)]⟩

/-- Timestamp semantics for the sample dates used in concrete scenarios. -/
def dtSample : String → Int := fun s =>
  if s = "2025-01-02T00:00:00.000Z" then 2
  else if s = "2025-01-01T00:00:00.000Z" then 1
  else 0

/-- A release titled "Fix login" with one change, the consolidation target
of the spec's example. -/
def consR1 : Release :=
  ⟨"0.01.012.000", "2025-01-01T00:00:00.000Z", "Fix login", "fix", "S1", ["A"], none, some 30⟩

/-- A document holding exactly the release `consR1`. -/
def sampleConsDoc : RawDoc :=
  ⟨"0.01.012.000", 0, 1, 12, some 0, [("0.01.012.000", "seed")],
   some [("0.01.012.000", consR1)]⟩

/-- Two distinct releases sharing the title "Fix login". -/
def dupR1 : Release :=
  ⟨"a", "2025-01-01T00:00:00.000Z", "Fix login", "fix", "s1", ["A"], none, some 20⟩

/-- Second of the duplicate-title releases, with the later date. -/
def dupR2 : Release :=
  ⟨"b", "2025-01-02T00:00:00.000Z", "Fix login", "fix", "s1b", ["A2"], none, some 20⟩

/-- A document with two same-titled releases. -/
def dupTitleDoc : RawDoc :=
  ⟨"0.00.000.000", 0, 0, 0, some 0, [], some [("a", dupR1), ("b", dupR2)]⟩

/-- A release that already sits at the key the next build increment will
produce. -/
def oldCollidingRelease : Release :=
  ⟨"0.00.000.001", "2025-01-01T00:00:00.000Z", "Old", "fix", "s", ["c"], none, some 20⟩

/-- A document whose releases map already has an entry at the upcoming
version key. -/
def collideDoc : RawDoc :=
  ⟨"0.00.000.000", 0, 0, 0, some 0, [], some [("0.00.000.001", oldCollidingRelease)]⟩

/-- A release whose own version string is still 3-part, used to probe
`addRelease`. -/
def threePartRelease : Release :=
  ⟨"1.2.3", "2025-01-02T00:00:00.000Z", "T2", "fix", "s2", ["c2"], none, some 20⟩

/-- A document carrying a legacy 2-part changelog key, which the 3-to-4
migration never rewrites. -/
def twoPartDoc : RawDoc :=
  ⟨"0.00.000.000", 0, 0, 0, some 0, [("1.2", "y")], none⟩

/-! ## `VersionManager.updateVersion` and the convenience operations -/

/-- The optional `releaseInfo` argument of `updateVersion`; an absent
`consolidateWithPrevious` behaves as `false` (only its truthiness is
used), so it is modelled as `Bool`. -/
structure ReleaseInfo where
  title : String
  summary : String
  changes : List String
  technical : Option (List String)
  consolidateWithPrevious : Bool
deriving DecidableEq, Repr

/-- The consolidating release info of the spec's example. -/
def consRI : ReleaseInfo := ⟨"Fix login", "S2", ["A", "B"], none, true⟩

/-- The increment-type-to-release-type ternary of `createNewRelease`. -/
def incTypeLabel (ty : IncType) : String :=
  if ty = .major then "major"
  else if ty = .minor then "feature"
  else if ty = .build then "fix"
  else "update"

/-- The release record built by `createNewRelease`, scored after creation. -/
def newReleaseOf (vi : VersionInfo) (ri : ReleaseInfo) (ty : IncType) (now : String) : Release :=
  let r : Release :=
    ⟨vi.version, now, ri.title, incTypeLabel ty, ri.summary, ri.changes, ri.technical, none⟩
  { r with impactScore := some (calculateImpactScore r) }

/-- `VersionManager.createNewRelease`: store the freshly scored release at
the document's current version key. -/
def createNewRelease (vi : VersionInfo) (ri : ReleaseInfo) (ty : IncType) (now : String) : VersionInfo :=
  let rels := vi.releases.getD []
  { vi with releases := some (recSet rels vi.version (newReleaseOf vi ri ty now)) }

/-- `Object.keys(releases).sort((a, b) => time(b) - time(a))[0]` together
with the release it points at: the stable descending sort by timestamp
puts first the entry with the maximal `dateTime` whose position is
earliest, which is what this fold computes. -/
def pickLatest (dt : String → Int) : List (String × Release) → Option (String × Release)
  | [] => none
  | e :: es => some (es.foldl (fun best cur => if dt best.2.date < dt cur.2.date then cur else best) e)

/-- Dedup-append of the consolidation: entries of `extra` not already in
`old` are pushed at the end in order (the membership set is captured
before the pushes, as in the source). -/
def mergeNoDup (old extra : List String) : List String :=
  old ++ extra.filter (fun c => !(old.contains c))

/-- The consolidated release record: new version, new date, new summary,
dedup-appended `changes` and `technical`, impact score recomputed on the
merged content. -/
def consolidatedRelease (latest : Release) (ri : ReleaseInfo) (newVer now : String) : Release :=
  let r1 : Release :=
    { latest with
      version := newVer
      date := now
      summary := ri.summary
      changes := mergeNoDup latest.changes ri.changes
      technical :=
        match ri.technical with
        | none => latest.technical
        | some ts => some (mergeNoDup (latest.technical.getD []) ts) }
  { r1 with impactScore := some (calculateImpactScore r1) }

/-- The intermediate document of `updateVersion` right after the changelog
write: the migrated current document, incremented, with
`changelog[newVersion.version] = changelogEntry` set. -/
def preDoc (raw : RawDoc) (ty : IncType) (entry : String) : VersionInfo :=
  let nv0 := incrementVersion (migrateVersionFormat raw) ty
  { nv0 with changelog := recSet nv0.changelog nv0.version entry }

/-- The migrated releases list `updateVersion` consults (the spread in
`incrementVersion` carries `releases` over unchanged, and `updateVersion`
substitutes `{}` when it is absent). -/
def relsOf (raw : RawDoc) : List (String × Release) :=
  (migrateVersionFormat raw).releases.getD []

/-- `VersionManager.updateVersion(type, changelogEntry, releaseInfo?)` as a
pure function of the raw persisted document, the clock reading `now`, and
the timestamp semantics `dt` of `new Date(s).getTime()`.  Returns the
in-memory document the method returns; the saved document is its
re-migration (`updateVersionSaved`). -/
def updateVersionModel (dt : String → Int) (now : String) (raw : RawDoc)
    (ty : IncType) (entry : String) (ri? : Option ReleaseInfo) : VersionInfo :=
  let nv := preDoc raw ty entry
  match ri? with
  | none => nv
  | some ri =>
      let rels := nv.releases.getD []
      if ri.consolidateWithPrevious && !rels.isEmpty then
        match pickLatest dt rels with
        | none => createNewRelease { nv with releases := some rels } ri ty now
        | some (lk, latest) =>
            if latest.title = ri.title then
              let merged := consolidatedRelease latest ri nv.version now
              let rels1 := recSet rels lk merged
              let rels2 :=
                if lk = nv.version then rels1
                else recDelete (recSet rels1 nv.version merged) lk
              { nv with releases := some rels2 }
            else createNewRelease { nv with releases := some rels } ri ty now
      else createNewRelease { nv with releases := some rels } ri ty now

/-- The document `updateVersion` writes back: the defensive re-migration
of the returned document (`migrateVersionFormat(newVersion)`). -/
def updateVersionSaved (dt : String → Int) (now : String) (raw : RawDoc)
    (ty : IncType) (entry : String) (ri? : Option ReleaseInfo) : VersionInfo :=
  migrateVersionFormat (updateVersionModel dt now raw ty entry ri?).toRaw

/-- `VersionManager.addChangelogEntry(entry)`: read-and-migrate, set the
entry at the current version key, save without re-migration. -/
def addChangelogEntryModel (raw : RawDoc) (entry : String) : VersionInfo :=
  let cur := migrateVersionFormat raw
  { cur with changelog := recSet cur.changelog cur.version entry }

/-- `VersionManager.addRelease(release)`: read-and-migrate, store the
caller's release at its own `version` key, save without re-migration. -/
def addReleaseModel (raw : RawDoc) (release : Release) : VersionInfo :=
  let cur := migrateVersionFormat raw
  { cur with releases := some (recSet (cur.releases.getD []) release.version release) }

/-! ## Helper lemmas -/

theorem natDigitsF_fuel (f1 : Nat) : ∀ (f2 n : Nat), n ≤ f1 → n ≤ f2 →
    natDigitsF f1 n = natDigitsF f2 n := by
  induction f1 with
  | zero =>
      intro f2 n h1 _
      have hn : n = 0 := by omega
      subst hn
      cases f2 with
      | zero => rfl
      | succ f2 => rw [natDigitsF, natDigitsF, if_pos (by omega)]
  | succ f1 ih =>
      intro f2 n h1 h2
      cases f2 with
      | zero =>
          have hn : n = 0 := by omega
          subst hn
          rw [natDigitsF, natDigitsF, if_pos (by omega)]
      | succ f2 =>
          rw [natDigitsF, natDigitsF]
          by_cases hn : n < 10
          · rw [if_pos hn, if_pos hn]
          · rw [if_neg hn, if_neg hn, ih f2 (n / 10) (by omega) (by omega)]

theorem natDigits_eq (n : Nat) :
    natDigits n = if n < 10 then [digitChar n]
      else natDigits (n / 10) ++ [digitChar (n % 10)] := by
  rw [natDigits, natDigits]
  cases n with
  | zero => rw [natDigitsF, if_pos (by omega)]
  | succ m =>
      rw [natDigitsF]
      by_cases hn : m + 1 < 10
      · rw [if_pos hn, if_pos hn]
      · rw [if_neg hn, if_neg hn,
            natDigitsF_fuel m ((m + 1) / 10) ((m + 1) / 10) (by omega) (by omega)]

theorem foldl_keyword_add (allText : String) (l : List String) (init : Nat) :
    l.foldl (fun sc k => if containsStr allText k then sc + 10 else sc) init
      = init + 10 * l.countP (fun k => containsStr allText k) := by
  induction l generalizing init with
  | nil => simp
  | cons h t ih =>
      simp only [List.foldl_cons, List.countP_cons]
      cases hc : containsStr allText h
      · simp [ih, hc]
      · simp [ih, hc]
        ring

theorem getD_take4 (parts : List String) (i : Nat) (h : i < 4) :
    (parts.take 4).getD i "" = parts.getD i "" := by
  simp [List.getD_eq_getElem?_getD, List.getElem?_take, h]

/-! ## Claim theorems -/

/-- C5: `incrementVersion` bumps exactly the requested component, resets
the components below it, leaves the ones above and the maps untouched,
and re-derives the version string as the 4-part formatted form of the
resulting components. -/
theorem incrementVersion_spec (v : VersionInfo) :
    incrementVersion v .build =
      { v with build := v.build + 1,
               version := formatVersion v.major v.minor v.update (some (v.build + 1)) } ∧
    incrementVersion v .update =
      { v with update := v.update + 1, build := 0,
               version := formatVersion v.major v.minor (v.update + 1) (some 0) } ∧
    incrementVersion v .minor =
      { v with minor := v.minor + 1, update := 0, build := 0,
               version := formatVersion v.major (v.minor + 1) 0 (some 0) } ∧
    incrementVersion v .major =
      { v with major := v.major + 1, minor := 0, update := 0, build := 0,
               version := formatVersion (v.major + 1) 0 0 (some 0) } :=
  ⟨rfl, rfl, rfl, rfl⟩

/-- C9: `getImpactLevel` classifies by closed lower bounds 150/100/60/30,
with boundary scores in the higher tier. -/
theorem getImpactLevel_spec (s : Int) :
    (150 ≤ s → (getImpactLevel s).level = "Critical") ∧
    (100 ≤ s → s < 150 → (getImpactLevel s).level = "High") ∧
    (60 ≤ s → s < 100 → (getImpactLevel s).level = "Medium") ∧
    (30 ≤ s → s < 60 → (getImpactLevel s).level = "Low") ∧
    (s < 30 → (getImpactLevel s).level = "Minimal") := by
  unfold getImpactLevel
  refine ⟨?_, ?_, ?_, ?_, ?_⟩ <;> intros <;> split_ifs <;> first | rfl | omega

/-- Witness for C9 at the boundary scores. -/
theorem getImpactLevel_spec_witness :
    (getImpactLevel 150).level = "Critical" ∧ (getImpactLevel 100).level = "High" ∧
    (getImpactLevel 60).level = "Medium" ∧ (getImpactLevel 30).level = "Low" ∧
    (getImpactLevel 29).level = "Minimal" :=
  ⟨(getImpactLevel_spec 150).1 (by decide),
   (getImpactLevel_spec 100).2.1 (by decide) (by decide),
   (getImpactLevel_spec 60).2.2.1 (by decide) (by decide),
   (getImpactLevel_spec 30).2.2.2.1 (by decide) (by decide),
   (getImpactLevel_spec 29).2.2.2.2 (by decide)⟩

/-- C2: `calculateImpactScore` is the 200-cap of type base points plus 5
per change, 3 per technical entry, and 10 per keyword occurring as a
substring of the lowercased text blob; it never exceeds 200; and the
spec's example scores 93, which classifies as Medium. -/
theorem calculateImpactScore_spec :
    (∀ r : Release, calculateImpactScore r =
        min (typeScore r.type + 5 * r.changes.length +
             3 * (match r.technical with | some t => t.length | none => 0) +
             10 * highImpactKeywords.countP (fun k => containsStr (allTextOf r) k)) 200) ∧
    (∀ r : Release, calculateImpactScore r ≤ 200) ∧
    calculateImpactScore ⟨"", "", "Add OAuth", "feature", "Improve security", ["a", "b"], some ["t1"], none⟩ = 93 ∧
    (getImpactLevel 93).level = "Medium" := by
  refine ⟨?_, ?_, by decide, by decide⟩
  · intro r
    cases ht : r.technical <;>
      · simp only [calculateImpactScore, ht, foldl_keyword_add]
        congr 1
        ring
  · intro r
    unfold calculateImpactScore
    exact Nat.min_le_right _ _

/-- C10: `parseVersion` depends only on the first four dot-separated
segments, and `parseVersion "1.2.3.4.5"` reads 1, 2, 3, 4. -/
theorem parseVersion_first_four :
    (∀ parts : List String, parseVersionParts (parts.take 4) = parseVersionParts parts) ∧
    parseVersion "1.2.3.4.5" = ⟨some 1, some 2, some 3, some 4⟩ := by
  constructor
  · intro parts
    unfold parseVersionParts segOr0
    rw [getD_take4 parts 0 (by omega), getD_take4 parts 1 (by omega),
        getD_take4 parts 2 (by omega), getD_take4 parts 3 (by omega)]
  · decide

/-- C3 counterexample: on `"a.b.c"` the present non-numeric segments do
not default to 0 — JS `parseInt` yields `NaN` (modelled `none`), so the
result is not the all-zero record the claim asserts. -/
theorem parseVersion_nonNumeric_counterexample :
    parseVersion "a.b.c" ≠ ⟨some 0, some 0, some 0, some 0⟩ := by decide

/-- C3 amended: `parseVersion` is total and missing segments default to 0
(the `|| '0'` fallback also catches empty segments), but a present
non-numeric segment parses to `NaN` (`none`) rather than 0:
`parseVersion "a.b.c"` is `{NaN, NaN, NaN, 0}`. -/
theorem parseVersion_amended :
    (∀ parts : List String, parts.length ≤ 3 → (parseVersionParts parts).build = some 0) ∧
    (∀ parts : List String, parts.length ≤ 2 → (parseVersionParts parts).update = some 0) ∧
    (∀ parts : List String, parts.length ≤ 1 → (parseVersionParts parts).minor = some 0) ∧
    (∀ parts : List String, parts.length = 0 → (parseVersionParts parts).major = some 0) ∧
    parseVersion "a.b.c" = ⟨none, none, none, some 0⟩ ∧
    parseVersion "" = ⟨some 0, some 0, some 0, some 0⟩ := by
  refine ⟨fun parts h => ?_, fun parts h => ?_, fun parts h => ?_, fun parts h => ?_,
    by decide, by decide⟩
  · show jsParseInt (segOr0 parts 3) = some 0
    unfold segOr0
    rw [List.getD_eq_default _ _ (by omega)]
    decide
  · show jsParseInt (segOr0 parts 2) = some 0
    unfold segOr0
    rw [List.getD_eq_default _ _ (by omega)]
    decide
  · show jsParseInt (segOr0 parts 1) = some 0
    unfold segOr0
    rw [List.getD_eq_default _ _ (by omega)]
    decide
  · show jsParseInt (segOr0 parts 0) = some 0
    unfold segOr0
    rw [List.getD_eq_default _ _ (by omega)]
    decide

/-- Witness for C3's amended theorem on the empty segment list. -/
theorem parseVersion_amended_witness :
    ([] : List String).length ≤ 3 ∧ (parseVersionParts []).build = some 0 ∧
    (parseVersionParts []).major = some 0 :=
  ⟨by decide, parseVersion_amended.1 [] (by decide),
   parseVersion_amended.2.2.2.1 [] (by decide)⟩

/-! ## Digit-string lemmas for the parse/format round trip -/

theorem data_mk (l : List Char) : (String.mk l).data = l := rfl

theorem mk_ne_empty (l : List Char) (h : l ≠ []) : String.mk l ≠ "" :=
  fun he => h (congrArg String.data he)

theorem digit_not_ws (c : Char) (h : digitB c = true) : wsB c = false := by
  simp only [digitB, Bool.and_eq_true, decide_eq_true_eq] at h
  simp only [wsB, Bool.or_eq_false_iff, beq_eq_false_iff_ne, ne_eq]
  omega

theorem digit_ne_dot (c : Char) (h : digitB c = true) : c ≠ '.' := by
  intro he
  subst he
  exact absurd h (by decide)

theorem digitB_digitChar (d : Nat) (h : d < 10) : digitB (digitChar d) = true := by
  interval_cases d <;> decide

theorem digitNum_digitChar (d : Nat) (h : d < 10) : digitNum (digitChar d) = d := by
  interval_cases d <;> decide

theorem natDigits_ne_nil (n : Nat) : natDigits n ≠ [] := by
  rw [natDigits_eq]
  split
  · simp
  · simp

theorem natDigits_digits (n : Nat) : ∀ c ∈ natDigits n, digitB c = true := by
  induction n using Nat.strong_induction_on with
  | _ n ih =>
      rw [natDigits_eq]
      split
      · intro c hc
        rw [List.mem_singleton] at hc
        subst hc
        exact digitB_digitChar n (by omega)
      · intro c hc
        rw [List.mem_append, List.mem_singleton] at hc
        rcases hc with hc | hc
        · exact ih (n / 10) (Nat.div_lt_self (by omega) (by omega)) c hc
        · subst hc
          exact digitB_digitChar (n % 10) (Nat.mod_lt n (by omega))

theorem padZeros_digits (k : Nat) (l : List Char) (hd : ∀ c ∈ l, digitB c = true) :
    ∀ c ∈ padZeros k l, digitB c = true := by
  intro c hc
  rw [padZeros, List.mem_append] at hc
  rcases hc with hc | hc
  · rw [List.eq_of_mem_replicate hc]
    decide
  · exact hd c hc

theorem padZeros_ne_nil (k : Nat) (l : List Char) (h : l ≠ []) : padZeros k l ≠ [] := by
  rw [padZeros]
  simp [h]

theorem foldl_digits_val (n : Nat) (acc : Nat) :
    (natDigits n).foldl (fun a c => a * 10 + digitNum c) acc
      = acc * 10 ^ (natDigits n).length + n := by
  induction n using Nat.strong_induction_on generalizing acc with
  | _ n ih =>
      rw [natDigits_eq]
      split
      · rw [List.foldl_cons, List.foldl_nil, List.length_singleton,
            digitNum_digitChar n (by omega)]
        ring
      · rw [List.foldl_append, List.foldl_cons, List.foldl_nil,
            ih (n / 10) (Nat.div_lt_self (by omega) (by omega)) acc,
            digitNum_digitChar (n % 10) (Nat.mod_lt n (by omega)),
            List.length_append, List.length_singleton, pow_succ]
        have := Nat.div_add_mod n 10
        ring_nf
        omega

theorem foldl_replicate_zeros (k : Nat) :
    (List.replicate k '0').foldl (fun a c => a * 10 + digitNum c) 0 = 0 := by
  induction k with
  | zero => rfl
  | succ k ih => rw [List.replicate_succ, List.foldl_cons]; simpa using ih

theorem chunkVal_padZeros (k n : Nat) : chunkVal 10 (padZeros k (natDigits n)) = n := by
  rw [chunkVal, padZeros, List.foldl_append, foldl_replicate_zeros, foldl_digits_val]
  simp

theorem dropWhile_ws_digits (l : List Char) (hd : ∀ c ∈ l, digitB c = true) :
    l.dropWhile wsB = l := by
  cases l with
  | nil => rfl
  | cons c t => simp [List.dropWhile_cons, digit_not_ws c (hd c (by simp))]

theorem stripSign_digits (l : List Char) (hne : l ≠ []) (hd : ∀ c ∈ l, digitB c = true) :
    stripSign l = (1, l) := by
  cases l with
  | nil => exact absurd rfl hne
  | cons c t =>
      have hc : digitB c = true := hd c (by simp)
      rw [stripSign, if_neg, if_neg]
      · intro he; subst he; exact absurd hc (by decide)
      · intro he; subst he; exact absurd hc (by decide)

theorem stripHex_digits (l : List Char) (hd : ∀ c ∈ l, digitB c = true) :
    stripHex l = (10, l) := by
  match l with
  | [] => rfl
  | [c] => rfl
  | c0 :: c1 :: t =>
      have h1 : digitB c1 = true := hd c1 (by simp)
      rw [stripHex, if_neg]
      rintro ⟨h0, hx | hx⟩ <;> (subst hx; exact absurd h1 (by decide))

theorem takeWhile_dec_digits (l : List Char) (hd : ∀ c ∈ l, digitB c = true) :
    l.takeWhile (radixDigitB 10) = l := by
  induction l with
  | nil => rfl
  | cons c t ih =>
      have hc : radixDigitB 10 c = true := by
        rw [radixDigitB, if_neg (by decide)]
        exact hd c (by simp)
      rw [List.takeWhile_cons, hc]
      simp [ih (fun x hx => hd x (by simp [hx]))]

theorem jsParseInt_digits (l : List Char) (hne : l ≠ []) (hd : ∀ c ∈ l, digitB c = true) :
    jsParseInt (String.mk l) = some ((chunkVal 10 l : Nat) : Int) := by
  simp only [jsParseInt, data_mk]
  rw [dropWhile_ws_digits l hd, stripSign_digits l hne hd]
  simp only []
  rw [stripHex_digits l hd]
  simp only []
  rw [takeWhile_dec_digits l hd, if_neg hne]
  simp

theorem jsParseInt_padZeros (k n : Nat) :
    jsParseInt (String.mk (padZeros k (natDigits n))) = some (n : Int) := by
  rw [jsParseInt_digits (padZeros k (natDigits n))
        (padZeros_ne_nil k (natDigits n) (natDigits_ne_nil n))
        (padZeros_digits k (natDigits n) (natDigits_digits n)),
      chunkVal_padZeros]

theorem jsParseInt_natDigits (n : Nat) :
    jsParseInt (String.mk (natDigits n)) = some (n : Int) := by
  have h := jsParseInt_padZeros 0 n
  rwa [padZeros, Nat.zero_sub, List.replicate_zero, List.nil_append] at h

/-! ## Lemmas about `splitOnDot` -/

theorem splitOnDot_ne_nil (l : List Char) : splitOnDot l ≠ [] := by
  cases l with
  | nil => simp [splitOnDot]
  | cons c t =>
      rw [splitOnDot]
      split
      · simp
      · split <;> simp

theorem splitOnDot_no_dot (l : List Char) (h : ∀ c ∈ l, c ≠ '.') :
    splitOnDot l = [l] := by
  induction l with
  | nil => rfl
  | cons c t ih =>
      rw [splitOnDot, if_neg (h c (by simp)), ih (fun x hx => h x (by simp [hx]))]

theorem splitOnDot_append_dot (xs ys : List Char) (h : ∀ c ∈ xs, c ≠ '.') :
    splitOnDot (xs ++ '.' :: ys) = xs :: splitOnDot ys := by
  induction xs with
  | nil => rw [List.nil_append, splitOnDot, if_pos rfl]
  | cons c t ih =>
      rw [List.cons_append, splitOnDot, if_neg (h c (by simp)),
          ih (fun x hx => h x (by simp [hx]))]

/-- C6: parsing the formatted version string recovers all components,
with `build` defaulting to 0 in the 3-part form. -/
theorem parse_format_roundtrip (M m u b : Nat) :
    parseVersion (formatVersion M m u none) = ⟨some (M : Int), some m, some u, some 0⟩ ∧
    parseVersion (formatVersion M m u (some b)) = ⟨some M, some m, some u, some b⟩ := by
  have hM : ∀ c ∈ natDigits M, c ≠ '.' := fun c hc => digit_ne_dot c (natDigits_digits M c hc)
  have hm : ∀ c ∈ padZeros 2 (natDigits m), c ≠ '.' :=
    fun c hc => digit_ne_dot c (padZeros_digits 2 (natDigits m) (natDigits_digits m) c hc)
  have hu : ∀ c ∈ padZeros 3 (natDigits u), c ≠ '.' :=
    fun c hc => digit_ne_dot c (padZeros_digits 3 (natDigits u) (natDigits_digits u) c hc)
  have hb : ∀ c ∈ padZeros 3 (natDigits b), c ≠ '.' :=
    fun c hc => digit_ne_dot c (padZeros_digits 3 (natDigits b) (natDigits_digits b) c hc)
  have hMne := mk_ne_empty (natDigits M) (natDigits_ne_nil M)
  have hmne := mk_ne_empty (padZeros 2 (natDigits m)) (padZeros_ne_nil 2 _ (natDigits_ne_nil m))
  have hune := mk_ne_empty (padZeros 3 (natDigits u)) (padZeros_ne_nil 3 _ (natDigits_ne_nil u))
  have hbne := mk_ne_empty (padZeros 3 (natDigits b)) (padZeros_ne_nil 3 _ (natDigits_ne_nil b))
  constructor
  · show parseVersionParts (jsSplitDot (String.mk _)) = _
    rw [jsSplitDot, data_mk]
    simp only [List.cons_append, List.append_assoc]
    rw [splitOnDot_append_dot _ _ hM, splitOnDot_append_dot _ _ hm,
        splitOnDot_no_dot _ hu]
    show parseVersionParts
        [String.mk (natDigits M), String.mk (padZeros 2 (natDigits m)),
         String.mk (padZeros 3 (natDigits u))] = _
    unfold parseVersionParts segOr0
    simp only [List.getD_cons_zero, List.getD_cons_succ, List.getD_nil]
    rw [if_neg hMne, if_neg hmne, if_neg hune, if_pos trivial]
    rw [show String.mk (natDigits M) = String.mk (padZeros 0 (natDigits M)) by rw [padZeros]; simp]
    rw [jsParseInt_padZeros, jsParseInt_padZeros, jsParseInt_padZeros]
    rfl
  · show parseVersionParts (jsSplitDot (String.mk _)) = _
    rw [jsSplitDot, data_mk]
    simp only [List.cons_append, List.append_assoc]
    rw [splitOnDot_append_dot _ _ hM, splitOnDot_append_dot _ _ hm,
        splitOnDot_append_dot _ _ hu, splitOnDot_no_dot _ hb]
    show parseVersionParts
        [String.mk (natDigits M), String.mk (padZeros 2 (natDigits m)),
         String.mk (padZeros 3 (natDigits u)), String.mk (padZeros 3 (natDigits b))] = _
    unfold parseVersionParts segOr0
    simp only [List.getD_cons_zero, List.getD_cons_succ, List.getD_nil]
    rw [if_neg hMne, if_neg hmne, if_neg hune, if_neg hbne]
    rw [show String.mk (natDigits M) = String.mk (padZeros 0 (natDigits M)) by rw [padZeros]; simp]
    rw [jsParseInt_padZeros, jsParseInt_padZeros, jsParseInt_padZeros, jsParseInt_padZeros]

/-! ## Lemmas about the JS object-map operations -/

theorem mem_recSet_weak {α : Type} {m : List (String × α)} {k : String} {v : α}
    {e : String × α} (h : e ∈ recSet m k v) : e = (k, v) ∨ e ∈ m := by
  induction m with
  | nil => simpa [recSet] using h
  | cons x t ih =>
      obtain ⟨k', v'⟩ := x
      rw [recSet] at h
      split at h
      · rcases List.mem_cons.1 h with h | h
        · exact Or.inl h
        · exact Or.inr (List.mem_cons_of_mem _ h)
      · rcases List.mem_cons.1 h with h | h
        · exact Or.inr (h ▸ List.mem_cons_self _ _)
        · rcases ih h with h | h
          · exact Or.inl h
          · exact Or.inr (List.mem_cons_of_mem _ h)

theorem mem_recSet_nodup {α : Type} {m : List (String × α)} {k : String} {v : α}
    {e : String × α} (hnd : (recKeys m).Nodup) (h : e ∈ recSet m k v) :
    e = (k, v) ∨ (e ∈ m ∧ e.1 ≠ k) := by
  induction m with
  | nil => simpa [recSet] using h
  | cons x t ih =>
      obtain ⟨k', v'⟩ := x
      rw [recKeys, List.map_cons, List.nodup_cons] at hnd
      rw [recSet] at h
      split at h
      · rename_i hk
        rcases List.mem_cons.1 h with h | h
        · exact Or.inl h
        · refine Or.inr ⟨List.mem_cons_of_mem _ h, ?_⟩
          intro he
          have hm : e.1 ∈ List.map Prod.fst t := List.mem_map_of_mem Prod.fst h
          rw [he, ← hk] at hm
          exact hnd.1 hm
      · rename_i hk
        rcases List.mem_cons.1 h with h | h
        · exact Or.inr ⟨h ▸ List.mem_cons_self _ _, by simp [h, hk]⟩
        · rcases ih hnd.2 h with h | h
          · exact Or.inl h
          · exact Or.inr ⟨List.mem_cons_of_mem _ h.1, h.2⟩

theorem recSet_mem_self {α : Type} (m : List (String × α)) (k : String) (v : α) :
    (k, v) ∈ recSet m k v := by
  induction m with
  | nil => simp [recSet]
  | cons x t ih =>
      obtain ⟨k', v'⟩ := x
      rw [recSet]
      split
      · exact List.mem_cons_self _ _
      · exact List.mem_cons_of_mem _ ih

theorem recKeys_cons {α : Type} (x : String × α) (t : List (String × α)) :
    recKeys (x :: t) = x.1 :: recKeys t := rfl

theorem recKeys_nil {α : Type} : recKeys ([] : List (String × α)) = [] := rfl

theorem recSet_keys_sub {α : Type} (m : List (String × α)) (k : String) (v : α) :
    ∀ x ∈ recKeys (recSet m k v), x = k ∨ x ∈ recKeys m := by
  induction m with
  | nil =>
      intro x hx
      simp [recSet, recKeys_cons, recKeys_nil] at hx
      exact Or.inl hx
  | cons y t ih =>
      obtain ⟨k', v'⟩ := y
      intro x hx
      rw [recSet] at hx
      split at hx
      · rw [recKeys_cons] at hx
        rcases List.mem_cons.1 hx with h | h
        · exact Or.inl h
        · exact Or.inr (by rw [recKeys_cons]; exact List.mem_cons_of_mem _ h)
      · rw [recKeys_cons] at hx
        rcases List.mem_cons.1 hx with h | h
        · exact Or.inr (by rw [recKeys_cons]; exact h ▸ List.mem_cons_self _ _)
        · rcases ih x h with h' | h'
          · exact Or.inl h'
          · exact Or.inr (by rw [recKeys_cons]; exact List.mem_cons_of_mem _ h')

theorem recSet_nodup {α : Type} (m : List (String × α)) (k : String) (v : α)
    (h : (recKeys m).Nodup) : (recKeys (recSet m k v)).Nodup := by
  induction m with
  | nil => simp [recSet, recKeys_cons, recKeys_nil]
  | cons y t ih =>
      obtain ⟨k', v'⟩ := y
      rw [recKeys_cons, List.nodup_cons] at h
      rw [recSet]
      split
      · rename_i hk
        rw [recKeys_cons, List.nodup_cons]
        exact ⟨by rw [← hk]; exact h.1, h.2⟩
      · rename_i hk
        rw [recKeys_cons, List.nodup_cons]
        refine ⟨?_, ih h.2⟩
        intro hmem
        rcases recSet_keys_sub t k v k' hmem with h' | h'
        · exact hk h'
        · exact h.1 h'

theorem recSet_of_not_mem {α : Type} (m : List (String × α)) (k : String) (v : α)
    (h : k ∉ recKeys m) : recSet m k v = m ++ [(k, v)] := by
  induction m with
  | nil => rfl
  | cons y t ih =>
      obtain ⟨k', v'⟩ := y
      rw [recKeys_cons, List.mem_cons] at h
      rw [recSet, if_neg (fun he => h (Or.inl he.symm)), List.cons_append,
          ih (fun hm => h (Or.inr hm))]

/-! ## Lemmas about `migrateRecord` and `migrateVersionFormat` -/

theorem foldlSet_mem {α : Type} (f : String → String) (g : α → α)
    (m : List (String × α)) (acc : List (String × α)) (e : String × α)
    (h : e ∈ m.foldl (fun a x => recSet a (f x.1) (g x.2)) acc) :
    e ∈ acc ∨ ∃ x ∈ m, e = (f x.1, g x.2) := by
  induction m generalizing acc with
  | nil => exact Or.inl h
  | cons x t ih =>
      rw [List.foldl_cons] at h
      rcases ih (recSet acc (f x.1) (g x.2)) h with h' | h'
      · rcases mem_recSet_weak h' with h'' | h''
        · exact Or.inr ⟨x, List.mem_cons_self _ _, h''⟩
        · exact Or.inl h''
      · obtain ⟨y, hy, he⟩ := h'
        exact Or.inr ⟨y, List.mem_cons_of_mem _ hy, he⟩

theorem foldlSet_nodup {α : Type} (f : String → String) (g : α → α)
    (m : List (String × α)) (acc : List (String × α))
    (h : (recKeys acc).Nodup) :
    (recKeys (m.foldl (fun a x => recSet a (f x.1) (g x.2)) acc)).Nodup := by
  induction m generalizing acc with
  | nil => exact h
  | cons x t ih => exact ih _ (recSet_nodup _ _ _ h)

theorem migrateRecord_mem {α : Type} (f : String → String) (g : α → α)
    (m : List (String × α)) (e : String × α) (h : e ∈ migrateRecord f g m) :
    ∃ x ∈ m, e = (f x.1, g x.2) := by
  rcases foldlSet_mem f g m [] e h with h' | h'
  · exact absurd h' (List.not_mem_nil e)
  · exact h'

theorem migrateRecord_nodup {α : Type} (f : String → String) (g : α → α)
    (m : List (String × α)) : (recKeys (migrateRecord f g m)).Nodup :=
  foldlSet_nodup f g m [] (by simp [recKeys_nil])

theorem foldlSet_fix {α : Type} (f : String → String) (g : α → α)
    (m : List (String × α)) :
    ∀ acc : List (String × α), (recKeys (acc ++ m)).Nodup →
      (∀ e ∈ m, f e.1 = e.1 ∧ g e.2 = e.2) →
      m.foldl (fun a x => recSet a (f x.1) (g x.2)) acc = acc ++ m := by
  induction m with
  | nil =>
      intro acc _ _
      simp
  | cons x t ih =>
      obtain ⟨k, v⟩ := x
      intro acc hnd hfix
      have hf : f k = k := (hfix (k, v) (List.mem_cons_self _ _)).1
      have hg : g v = v := (hfix (k, v) (List.mem_cons_self _ _)).2
      have hkeys : recKeys (acc ++ (k, v) :: t) = recKeys acc ++ k :: recKeys t := by
        simp [recKeys]
      have hxacc : k ∉ recKeys acc := by
        intro hmem
        have h1 := hnd
        rw [hkeys, List.nodup_append] at h1
        exact h1.2.2 hmem (List.mem_cons_self _ _)
      have heq : (acc ++ [(k, v)]) ++ t = acc ++ (k, v) :: t := by simp
      rw [List.foldl_cons]
      show t.foldl (fun a x => recSet a (f x.1) (g x.2)) (recSet acc (f k) (g v)) = _
      rw [hf, hg, recSet_of_not_mem acc k v hxacc,
          ih (acc ++ [(k, v)]) (by rw [heq]; exact hnd)
            (fun e he => hfix e (List.mem_cons_of_mem _ he))]
      exact heq

theorem migrateRecord_fix {α : Type} (f : String → String) (g : α → α)
    (m : List (String × α)) (hnd : (recKeys m).Nodup)
    (hfix : ∀ e ∈ m, f e.1 = e.1 ∧ g e.2 = e.2) :
    migrateRecord f g m = m := by
  have h := foldlSet_fix f g m [] (by simpa [recKeys_nil] using hnd) hfix
  simpa [migrateRecord] using h

theorem data_append (s t : String) : (s ++ t).data = s.data ++ t.data := rfl

theorem data_dot000 : (".000" : String).data = ['.', '0', '0', '0'] := rfl

theorem splitOnDot_cons_length (c : Char) (rest : List Char) :
    (splitOnDot (c :: rest)).length =
      if c = '.' then (splitOnDot rest).length + 1 else (splitOnDot rest).length := by
  simp only [splitOnDot]
  by_cases hc : c = '.'
  · rw [if_pos hc, if_pos hc]
    rfl
  · rw [if_neg hc, if_neg hc]
    obtain ⟨h1, t1, hr⟩ := List.exists_cons_of_ne_nil (splitOnDot_ne_nil rest)
    rw [hr]
    simp

theorem splitOnDot_append_length (l ds : List Char) (h : ∀ c ∈ ds, c ≠ '.') :
    (splitOnDot (l ++ '.' :: ds)).length = (splitOnDot l).length + 1 := by
  induction l with
  | nil =>
      rw [List.nil_append, splitOnDot_cons_length, if_pos rfl, splitOnDot_no_dot ds h]
      rfl
  | cons c t ih =>
      rw [List.cons_append, splitOnDot_cons_length, splitOnDot_cons_length, ih]
      by_cases hc : c = '.' <;> simp [hc]

theorem jsSplitDot_length (s : String) :
    (jsSplitDot s).length = (splitOnDot s.data).length := by
  rw [jsSplitDot, List.length_map]

theorem jsSplitDot_append000_length (s : String) :
    (jsSplitDot (s ++ ".000")).length = (jsSplitDot s).length + 1 := by
  rw [jsSplitDot_length, jsSplitDot_length, data_append, data_dot000]
  exact splitOnDot_append_length s.data ['0', '0', '0'] (by decide)

theorem append000_ne_empty (s : String) : s ++ ".000" ≠ "" := by
  intro h
  have h2 := congrArg String.data h
  rw [data_append, data_dot000] at h2
  simp at h2

theorem migrateKey_fix (k : String) (h : (jsSplitDot k).length ≠ 3) :
    migrateKey k = k := by
  rw [migrateKey, if_neg h]

theorem migrateKey_not3 (k : String) : (jsSplitDot (migrateKey k)).length ≠ 3 := by
  rw [migrateKey]
  split
  · rename_i h
    rw [jsSplitDot_append000_length, h]
    omega
  · rename_i h
    exact h

theorem migrateKey_idem (k : String) : migrateKey (migrateKey k) = migrateKey k :=
  migrateKey_fix (migrateKey k) (migrateKey_not3 k)

theorem migrateRelease_fix (r : Release) (h : (jsSplitDot r.version).length ≠ 3) :
    migrateRelease r = r := by
  rw [migrateRelease, migrateKey_fix r.version h]

theorem migrateRelease_idem (r : Release) :
    migrateRelease (migrateRelease r) = migrateRelease r :=
  migrateRelease_fix (migrateRelease r) (migrateKey_not3 r.version)

theorem migrateTop_fix (v : String) (h : (jsSplitDot v).length ≠ 3) :
    migrateTop v = v := by
  rw [migrateTop, if_neg (fun hc => h hc.2)]

theorem migrateTop_idem (v : String) : migrateTop (migrateTop v) = migrateTop v := by
  by_cases h : v ≠ "" ∧ (jsSplitDot v).length = 3
  · have h2 : migrateTop v = v ++ ".000" := by rw [migrateTop, if_pos h]
    rw [h2]
    refine migrateTop_fix _ ?_
    rw [jsSplitDot_append000_length, h.2]
    omega
  · have h2 : migrateTop v = v := by rw [migrateTop, if_neg h]
    rw [h2, h2]

theorem migrateChangelog_idem (c : List (String × String)) :
    migrateRecord migrateKey id (migrateRecord migrateKey id c) =
      migrateRecord migrateKey id c := by
  refine migrateRecord_fix _ _ _ (migrateRecord_nodup _ _ _) ?_
  intro e he
  obtain ⟨x, _, rfl⟩ := migrateRecord_mem _ _ _ _ he
  exact ⟨migrateKey_idem _, rfl⟩

theorem migrateReleases_idem (rl : List (String × Release)) :
    migrateRecord migrateKey migrateRelease (migrateRecord migrateKey migrateRelease rl) =
      migrateRecord migrateKey migrateRelease rl := by
  refine migrateRecord_fix _ _ _ (migrateRecord_nodup _ _ _) ?_
  intro e he
  obtain ⟨x, _, rfl⟩ := migrateRecord_mem _ _ _ _ he
  exact ⟨migrateKey_idem _, migrateRelease_idem _⟩

/-- C7: `migrateVersionFormat` is idempotent (re-running it on its own
output changes nothing), and on an already-migrated document — `build`
present, top-level `version`, all changelog keys, all release keys and
nested release `version` fields already 4-part, keys distinct as in any
genuine JS object — it is a no-op. -/
theorem migrateVersionFormat_spec :
    (∀ d : RawDoc,
      migrateVersionFormat (migrateVersionFormat d).toRaw = migrateVersionFormat d) ∧
    (∀ d : RawDoc, (∃ b, d.build = some b) →
      (jsSplitDot d.version).length = 4 →
      (recKeys d.changelog).Nodup →
      (∀ e ∈ d.changelog, (jsSplitDot e.1).length = 4) →
      (recKeys (d.releases.getD [])).Nodup →
      (∀ e ∈ d.releases.getD [],
        (jsSplitDot e.1).length = 4 ∧ (jsSplitDot e.2.version).length = 4) →
      (migrateVersionFormat d).toRaw = d) := by
  constructor
  · intro d
    cases hrel : d.releases with
    | none =>
        simp only [migrateVersionFormat, VersionInfo.toRaw, hrel]
        simp [migrateTop_idem, migrateChangelog_idem]
    | some rl =>
        simp only [migrateVersionFormat, VersionInfo.toRaw, hrel]
        simp [migrateTop_idem, migrateChangelog_idem, migrateReleases_idem]
  · intro d hb hv hclnd hcl hrlnd hrl
    obtain ⟨dv, dM, dmi, dup, db, dc, dr⟩ := d
    obtain ⟨b, hb⟩ := hb
    simp only at hb hv hclnd hcl hrlnd hrl
    subst hb
    cases dr with
    | none =>
        simp only [migrateVersionFormat, VersionInfo.toRaw]
        simp [migrateTop_fix dv (by omega),
              migrateRecord_fix migrateKey id dc hclnd
                (fun e he => ⟨migrateKey_fix e.1 (by rw [hcl e he]; omega), rfl⟩)]
    | some rl =>
        simp only [Option.getD_some] at hrlnd hrl
        simp only [migrateVersionFormat, VersionInfo.toRaw]
        simp [migrateTop_fix dv (by omega),
              migrateRecord_fix migrateKey id dc hclnd
                (fun e he => ⟨migrateKey_fix e.1 (by rw [hcl e he]; omega), rfl⟩),
              migrateRecord_fix migrateKey migrateRelease rl hrlnd
                (fun e he => ⟨migrateKey_fix e.1 (by rw [(hrl e he).1]; omega),
                              migrateRelease_fix e.2 (by rw [(hrl e he).2]; omega)⟩)]

/-- Witness for C7's no-op clause on a concrete already-migrated document. -/
theorem migrateVersionFormat_spec_witness :
    (∃ b, sampleMigratedDoc.build = some b) ∧
    (jsSplitDot sampleMigratedDoc.version).length = 4 ∧
    (migrateVersionFormat sampleMigratedDoc).toRaw = sampleMigratedDoc :=
  ⟨⟨0, rfl⟩, by decide,
   migrateVersionFormat_spec.2 sampleMigratedDoc ⟨0, rfl⟩ (by decide) (by decide)
     (by decide) (by decide) (by decide)⟩

theorem migrateTop_not3 (v : String) : (jsSplitDot (migrateTop v)).length ≠ 3 := by
  rw [migrateTop]
  split
  · rename_i h
    rw [jsSplitDot_append000_length, h.2]
    omega
  · rename_i h
    push_neg at h
    by_cases hv : v = ""
    · subst hv
      decide
    · exact h hv

theorem migrate_no3 (d : RawDoc) :
    (∀ e ∈ (migrateVersionFormat d).changelog, (jsSplitDot e.1).length ≠ 3) ∧
    (∀ e ∈ (migrateVersionFormat d).releases.getD [],
      (jsSplitDot e.1).length ≠ 3 ∧ (jsSplitDot e.2.version).length ≠ 3) := by
  constructor
  · intro e he
    obtain ⟨x, _, rfl⟩ := migrateRecord_mem _ _ _ _ he
    exact migrateKey_not3 x.1
  · intro e he
    cases hrel : d.releases with
    | none => rw [show (migrateVersionFormat d).releases = none by
                    simp [migrateVersionFormat, hrel]] at he
              simp at he
    | some rl =>
        rw [show (migrateVersionFormat d).releases
              = some (migrateRecord migrateKey migrateRelease rl) by
                simp [migrateVersionFormat, hrel]] at he
        rw [Option.getD_some] at he
        obtain ⟨x, _, rfl⟩ := migrateRecord_mem _ _ _ _ he
        exact ⟨migrateKey_not3 x.1, migrateKey_not3 x.2.version⟩

/-- C4 counterexample: `addRelease` persists the caller's release under
its own 3-part version key (no re-migration before save), and
`updateVersion` re-migration rewrites only 3-part keys, so a legacy
2-part changelog key survives in the saved document — hence neither
"every key is 4-part" nor "no 3-part key remains after every ledger
operation" holds as stated. -/
theorem ledger_fourpart_counterexample :
    ("1.2.3", threePartRelease) ∈ (addReleaseModel sampleMigratedDoc threePartRelease).releases.getD [] ∧
    (jsSplitDot "1.2.3").length = 3 ∧
    ("1.2", "y") ∈ (updateVersionSaved (fun _ => 0) "2025-03-03T00:00:00.000Z" twoPartDoc
        IncType.build "e" none).changelog ∧
    (jsSplitDot "1.2").length = 2 := by
  refine ⟨?_, by decide, ?_, by decide⟩ <;> decide

/-- C4 amended: after `updateVersion` (whose save re-migrates) and after
`addChangelogEntry` (which only inserts the migrated current version key),
no 3-part key remains among changelog keys, release keys, or nested
release `version` fields; `addRelease` is excluded (it persists the
caller's key unmigrated), and keys with part counts other than 3 (e.g.
2-part) are never rewritten, so "4-part" cannot be claimed for every key. -/
theorem ledger_no_threepart_amended :
    (∀ (dt : String → Int) (now : String) (raw : RawDoc) (ty : IncType) (entry : String)
        (ri? : Option ReleaseInfo),
      (∀ e ∈ (updateVersionSaved dt now raw ty entry ri?).changelog,
        (jsSplitDot e.1).length ≠ 3) ∧
      (∀ e ∈ (updateVersionSaved dt now raw ty entry ri?).releases.getD [],
        (jsSplitDot e.1).length ≠ 3 ∧ (jsSplitDot e.2.version).length ≠ 3)) ∧
    (∀ (raw : RawDoc) (entry : String),
      (∀ e ∈ (addChangelogEntryModel raw entry).changelog,
        (jsSplitDot e.1).length ≠ 3) ∧
      (∀ e ∈ (addChangelogEntryModel raw entry).releases.getD [],
        (jsSplitDot e.1).length ≠ 3 ∧ (jsSplitDot e.2.version).length ≠ 3)) := by
  constructor
  · intro dt now raw ty entry ri?
    exact migrate_no3 _
  · intro raw entry
    constructor
    · intro e he
      rcases mem_recSet_weak he with h | h
      · rw [h]
        exact migrateTop_not3 raw.version
      · exact (migrate_no3 raw).1 e h
    · intro e he
      exact (migrate_no3 raw).2 e he

/-- Witness for C4's amended theorem on a concrete saved document. -/
theorem ledger_no_threepart_amended_witness :
    ("1.02.003.000", "x") ∈ (updateVersionSaved (fun _ => 0) "2025-03-03T00:00:00.000Z"
        sampleMigratedDoc IncType.build "e" none).changelog ∧
    (jsSplitDot "1.02.003.000").length ≠ 3 :=
  ⟨by decide,
   (ledger_no_threepart_amended.1 (fun _ => 0) "2025-03-03T00:00:00.000Z"
      sampleMigratedDoc IncType.build "e" none).1 ("1.02.003.000", "x") (by decide)⟩

/-! ## Lemmas for `updateVersion` -/

theorem recGet_recSet_self {α : Type} (m : List (String × α)) (k : String) (v : α) :
    recGet (recSet m k v) k = some v := by
  induction m with
  | nil => simp [recSet, recGet]
  | cons x t ih =>
      obtain ⟨k', v'⟩ := x
      rw [recSet]
      split
      · rw [recGet, if_pos rfl]
      · rw [recGet]
        rename_i hk
        rw [if_neg hk, ih]

theorem recGet_recSet_ne {α : Type} (m : List (String × α)) (k : String) (v : α)
    (k' : String) (h : k' ≠ k) : recGet (recSet m k v) k' = recGet m k' := by
  induction m with
  | nil =>
      simp only [recSet, recGet]
      rw [if_neg (fun he => h he.symm)]
  | cons x t ih =>
      obtain ⟨ka, va⟩ := x
      rw [recSet]
      split
      · rename_i hk
        rw [recGet, recGet, if_neg (fun he => h he.symm), if_neg]
        rw [hk]
        exact fun he => h he.symm
      · rw [recGet, recGet]
        split
        · rfl
        · exact ih

theorem mem_recDelete {α : Type} (m : List (String × α)) (k : String) (e : String × α) :
    e ∈ recDelete m k ↔ e ∈ m ∧ e.1 ≠ k := by
  rw [recDelete, List.mem_filter, bne_iff_ne]

theorem recGet_none_of_no_key {α : Type} (m : List (String × α)) (k : String)
    (h : ∀ e ∈ m, e.1 ≠ k) : recGet m k = none := by
  induction m with
  | nil => rfl
  | cons x t ih =>
      rw [recGet]
      rw [if_neg (h x (List.mem_cons_self _ _))]
      exact ih (fun e he => h e (List.mem_cons_of_mem _ he))

theorem recGet_recDelete_self {α : Type} (m : List (String × α)) (k : String) :
    recGet (recDelete m k) k = none := by
  refine recGet_none_of_no_key _ _ ?_
  intro e he
  exact ((mem_recDelete m k e).1 he).2

theorem recGet_recDelete_ne {α : Type} (m : List (String × α)) (k : String)
    (k' : String) (h : k' ≠ k) : recGet (recDelete m k) k' = recGet m k' := by
  induction m with
  | nil => rfl
  | cons x t ih =>
      obtain ⟨ka, va⟩ := x
      rw [recDelete, List.filter_cons]
      by_cases hk : ka = k
      · rw [if_neg (by simp [hk])]
        rw [recGet, if_neg (by rw [hk]; exact fun he => h he.symm)]
        exact ih
      · rw [if_pos (by simp [hk])]
        rw [recGet, recGet]
        split
        · rfl
        · exact ih

theorem recSet_length_of_none {α : Type} (m : List (String × α)) (k : String) (v : α)
    (h : recGet m k = none) : (recSet m k v).length = m.length + 1 := by
  induction m with
  | nil => rfl
  | cons x t ih =>
      obtain ⟨ka, va⟩ := x
      rw [recGet] at h
      split at h
      · exact absurd h (by simp)
      · rename_i hk
        rw [recSet, if_neg hk, List.length_cons, List.length_cons, ih h]

theorem foldl_pick_mem (dt : String → Int) (x : String × Release)
    (t : List (String × Release)) :
    t.foldl (fun best cur => if dt best.2.date < dt cur.2.date then cur else best) x ∈ x :: t := by
  induction t generalizing x with
  | nil => simp
  | cons y t ih =>
      rw [List.foldl_cons]
      by_cases hc : dt x.2.date < dt y.2.date
      · rw [if_pos hc]
        rcases List.mem_cons.1 (ih y) with h | h
        · simp [h]
        · simp [h]
      · rw [if_neg hc]
        rcases List.mem_cons.1 (ih x) with h | h
        · simp [h]
        · simp [h]

theorem pickLatest_mem (dt : String → Int) (rels : List (String × Release))
    (e : String × Release) (h : pickLatest dt rels = some e) : e ∈ rels := by
  cases rels with
  | nil => exact absurd h (by simp [pickLatest])
  | cons x t =>
      rw [pickLatest, Option.some.injEq] at h
      rw [← h]
      exact foldl_pick_mem dt x t

theorem pickLatest_some (dt : String → Int) (rels : List (String × Release))
    (h : rels ≠ []) : ∃ e, pickLatest dt rels = some e := by
  cases rels with
  | nil => exact absurd rfl h
  | cons x t => exact ⟨_, rfl⟩

theorem incrementVersion_releases (cur : VersionInfo) (ty : IncType) :
    (incrementVersion cur ty).releases = cur.releases := by
  cases ty <;> rfl

theorem incrementVersion_version (cur : VersionInfo) (ty : IncType) :
    (incrementVersion cur ty).version
      = formatVersion (incrementVersion cur ty).major (incrementVersion cur ty).minor
          (incrementVersion cur ty).update (some (incrementVersion cur ty).build) := by
  cases ty <;> rfl

theorem preDoc_releases (raw : RawDoc) (ty : IncType) (entry : String) :
    (preDoc raw ty entry).releases = (migrateVersionFormat raw).releases := by
  show (incrementVersion (migrateVersionFormat raw) ty).releases = _
  exact incrementVersion_releases _ _

theorem preDoc_rels (raw : RawDoc) (ty : IncType) (entry : String) :
    (preDoc raw ty entry).releases.getD [] = relsOf raw := by
  rw [preDoc_releases]
  rfl

theorem relsOf_nodup (raw : RawDoc) : (recKeys (relsOf raw)).Nodup := by
  rw [relsOf]
  cases h : (migrateVersionFormat raw).releases with
  | none => simp [recKeys_nil]
  | some rl =>
      rw [Option.getD_some]
      cases hrel : raw.releases with
      | none => rw [show (migrateVersionFormat raw).releases = none by
                      simp [migrateVersionFormat, hrel]] at h
                cases h
      | some rl0 =>
          rw [show (migrateVersionFormat raw).releases
                = some (migrateRecord migrateKey migrateRelease rl0) by
                  simp [migrateVersionFormat, hrel]] at h
          cases h
          exact migrateRecord_nodup _ _ _

theorem updateVersionModel_eq_create (dt : String → Int) (now : String) (raw : RawDoc)
    (ty : IncType) (entry : String) (ri : ReleaseInfo)
    (hcond : ri.consolidateWithPrevious = false ∨ relsOf raw = [] ∨
      (∃ lk latest, pickLatest dt (relsOf raw) = some (lk, latest) ∧ latest.title ≠ ri.title)) :
    updateVersionModel dt now raw ty entry (some ri)
      = createNewRelease { preDoc raw ty entry with releases := some (relsOf raw) } ri ty now := by
  simp only [updateVersionModel, preDoc_rels]
  rcases hcond with hc | hr | ⟨lk, latest, hp, ht⟩
  · simp [hc]
  · simp [hr]
  · by_cases hb : (ri.consolidateWithPrevious && !(relsOf raw).isEmpty) = true
    · simp only [hb, if_true, hp]
      rw [if_neg (fun he => ht he)]
    · simp only [Bool.not_eq_true] at hb
      simp [hb]

theorem updateVersionModel_eq_consolidate (dt : String → Int) (now : String) (raw : RawDoc)
    (ty : IncType) (entry : String) (ri : ReleaseInfo) (lk : String) (latest : Release)
    (hcons : ri.consolidateWithPrevious = true)
    (hp : pickLatest dt (relsOf raw) = some (lk, latest))
    (ht : latest.title = ri.title) :
    updateVersionModel dt now raw ty entry (some ri)
      = { preDoc raw ty entry with releases := some (
            if lk = (preDoc raw ty entry).version then
              recSet (relsOf raw) lk
                (consolidatedRelease latest ri (preDoc raw ty entry).version now)
            else
              recDelete
                (recSet
                  (recSet (relsOf raw) lk
                    (consolidatedRelease latest ri (preDoc raw ty entry).version now))
                  (preDoc raw ty entry).version
                  (consolidatedRelease latest ri (preDoc raw ty entry).version now))
                lk) } := by
  have hne : relsOf raw ≠ [] := by
    intro h
    rw [h] at hp
    exact absurd hp (by simp [pickLatest])
  have hb : (ri.consolidateWithPrevious && !(relsOf raw).isEmpty) = true := by
    obtain ⟨x, t, hxt⟩ := List.exists_cons_of_ne_nil hne
    rw [hcons, hxt]
    rfl
  simp only [updateVersionModel, preDoc_rels, hb, if_true, hp]
  rw [if_pos ht]

/-- C8 counterexample: with `releaseInfo` given and no consolidation, a
release that already sits at the key of the new canonical version is
overwritten, so not every previously existing release is left unchanged,
and only one release results instead of two. -/
theorem updateVersion_create_counterexample :
    ("0.00.000.001", oldCollidingRelease) ∉
      (updateVersionModel dtSample "2025-02-02T00:00:00.000Z" collideDoc IncType.build "e"
        (some ⟨"New", "S", ["c1"], none, false⟩)).releases.getD [] ∧
    ((updateVersionModel dtSample "2025-02-02T00:00:00.000Z" collideDoc IncType.build "e"
        (some ⟨"New", "S", ["c1"], none, false⟩)).releases.getD []).length = 1 := by
  decide

/-- C8 amended: when `updateVersion` is given `releaseInfo` and does not
consolidate (flag false, or empty releases map, or latest-title mismatch),
it stores at the new canonical version key the freshly scored release with
`date = now`, the increment type mapped major→major, minor→feature,
build→fix, update→update, and `summary`/`changes`/`technical` from
`releaseInfo`; every release at a key other than the new version key is
left unchanged, and when no release previously occupied the new key the
release count grows by exactly one (a pre-existing release at the new key
is overwritten, which the original claim did not allow for). -/
theorem updateVersion_create_amended
    (dt : String → Int) (now : String) (raw : RawDoc) (ty : IncType) (entry : String)
    (ri : ReleaseInfo)
    (hcond : ri.consolidateWithPrevious = false ∨ relsOf raw = [] ∨
      (∃ lk latest, pickLatest dt (relsOf raw) = some (lk, latest) ∧ latest.title ≠ ri.title)) :
    recGet ((updateVersionModel dt now raw ty entry (some ri)).releases.getD [])
        (preDoc raw ty entry).version
      = some (newReleaseOf { preDoc raw ty entry with releases := some (relsOf raw) } ri ty now) ∧
    newReleaseOf { preDoc raw ty entry with releases := some (relsOf raw) } ri ty now =
      { version := (preDoc raw ty entry).version, date := now, title := ri.title,
        type := incTypeLabel ty, summary := ri.summary, changes := ri.changes,
        technical := ri.technical,
        impactScore := some (calculateImpactScore
          ⟨(preDoc raw ty entry).version, now, ri.title, incTypeLabel ty, ri.summary,
           ri.changes, ri.technical, none⟩) } ∧
    (incTypeLabel IncType.major = "major" ∧ incTypeLabel IncType.minor = "feature" ∧
     incTypeLabel IncType.build = "fix" ∧ incTypeLabel IncType.update = "update") ∧
    (∀ k, k ≠ (preDoc raw ty entry).version →
      recGet ((updateVersionModel dt now raw ty entry (some ri)).releases.getD []) k
        = recGet (relsOf raw) k) ∧
    (recGet (relsOf raw) (preDoc raw ty entry).version = none →
      ((updateVersionModel dt now raw ty entry (some ri)).releases.getD []).length
        = (relsOf raw).length + 1) := by
  rw [updateVersionModel_eq_create dt now raw ty entry ri hcond]
  have hrr : (createNewRelease { preDoc raw ty entry with releases := some (relsOf raw) }
        ri ty now).releases.getD []
      = recSet (relsOf raw) (preDoc raw ty entry).version
          (newReleaseOf { preDoc raw ty entry with releases := some (relsOf raw) } ri ty now) := rfl
  rw [hrr]
  refine ⟨recGet_recSet_self _ _ _, rfl, ⟨rfl, rfl, rfl, rfl⟩, ?_, ?_⟩
  · intro k hk
    exact recGet_recSet_ne _ _ _ k hk
  · intro hnone
    exact recSet_length_of_none _ _ _ hnone

/-- Witness for C8's amended theorem: a title mismatch on a concrete
document, with the new release stored at the new version key. -/
theorem updateVersion_create_amended_witness :
    pickLatest dtSample (relsOf sampleConsDoc) = some ("0.01.012.000", consR1) ∧
    consR1.title ≠ "Unrelated fix" ∧
    recGet ((updateVersionModel dtSample "2025-02-02T00:00:00.000Z" sampleConsDoc IncType.build
        "e" (some ⟨"Unrelated fix", "S2", ["A", "B"], none, true⟩)).releases.getD [])
        "0.01.012.001"
      = some (newReleaseOf
          { preDoc sampleConsDoc IncType.build "e" with releases := some (relsOf sampleConsDoc) }
          ⟨"Unrelated fix", "S2", ["A", "B"], none, true⟩ IncType.build
          "2025-02-02T00:00:00.000Z") :=
  ⟨by decide, by decide,
   (updateVersion_create_amended dtSample "2025-02-02T00:00:00.000Z" sampleConsDoc IncType.build
      "e" ⟨"Unrelated fix", "S2", ["A", "B"], none, true⟩
      (Or.inr (Or.inr ⟨"0.01.012.000", consR1, by decide, by decide⟩))).1⟩

theorem calculateImpactScore_update_score (r : Release) (sc : Option Nat) :
    calculateImpactScore { r with impactScore := sc } = calculateImpactScore r := rfl

/-- C1 counterexample: on a document holding two releases that share the
title "Fix login", consolidating with that title merges only the latest
one; the other remains, so the document ends with two releases bearing the
title rather than exactly one. -/
theorem updateVersion_consolidate_counterexample :
    consRI.consolidateWithPrevious = true ∧
    pickLatest dtSample (relsOf dupTitleDoc) = some ("b", dupR2) ∧
    dupR2.title = consRI.title ∧
    (((updateVersionModel dtSample "2025-02-02T00:00:00.000Z" dupTitleDoc IncType.build "e"
        (some consRI)).releases.getD []).countP (fun e => e.2.title == "Fix login")) = 2 := by
  refine ⟨rfl, by decide, rfl, by decide⟩

/-- C1 amended: under the claim's hypotheses plus the condition the
counterexample forces — the latest release is the *only* existing release
bearing `releaseInfo.title` — consolidation stores at the new canonical
version key a release whose `version` is the new canonical version, whose
`date` is now, whose `summary` is replaced, whose `changes`/`technical`
are the old lists with exactly the not-already-present entries appended in
order, and whose `impactScore` is recomputed on the merged content; the
old key is deleted whenever it differs, and the merged release is the only
one bearing that title. -/
theorem updateVersion_consolidate_amended
    (dt : String → Int) (now : String) (raw : RawDoc) (ty : IncType) (entry : String)
    (ri : ReleaseInfo) (lk : String) (latest : Release)
    (hcons : ri.consolidateWithPrevious = true)
    (hp : pickLatest dt (relsOf raw) = some (lk, latest))
    (ht : latest.title = ri.title)
    (huniq : ∀ e ∈ relsOf raw, e.2.title = ri.title → e.1 = lk) :
    (consolidatedRelease latest ri (preDoc raw ty entry).version now).version
        = (preDoc raw ty entry).version ∧
    (consolidatedRelease latest ri (preDoc raw ty entry).version now).date = now ∧
    (consolidatedRelease latest ri (preDoc raw ty entry).version now).title = ri.title ∧
    (consolidatedRelease latest ri (preDoc raw ty entry).version now).summary = ri.summary ∧
    (consolidatedRelease latest ri (preDoc raw ty entry).version now).changes
        = latest.changes ++ ri.changes.filter (fun c => !(latest.changes.contains c)) ∧
    (ri.technical = none →
      (consolidatedRelease latest ri (preDoc raw ty entry).version now).technical
        = latest.technical) ∧
    (∀ ts, ri.technical = some ts →
      (consolidatedRelease latest ri (preDoc raw ty entry).version now).technical
        = some (latest.technical.getD [] ++
            ts.filter (fun c => !((latest.technical.getD []).contains c)))) ∧
    (consolidatedRelease latest ri (preDoc raw ty entry).version now).impactScore
        = some (calculateImpactScore
            (consolidatedRelease latest ri (preDoc raw ty entry).version now)) ∧
    recGet ((updateVersionModel dt now raw ty entry (some ri)).releases.getD [])
        (preDoc raw ty entry).version
      = some (consolidatedRelease latest ri (preDoc raw ty entry).version now) ∧
    (lk ≠ (preDoc raw ty entry).version →
      recGet ((updateVersionModel dt now raw ty entry (some ri)).releases.getD []) lk
        = none) ∧
    (∀ e ∈ (updateVersionModel dt now raw ty entry (some ri)).releases.getD [],
      e.2.title = ri.title →
        e = ((preDoc raw ty entry).version,
             consolidatedRelease latest ri (preDoc raw ty entry).version now)) := by
  have hnd : (recKeys (relsOf raw)).Nodup := relsOf_nodup raw
  rw [updateVersionModel_eq_consolidate dt now raw ty entry ri lk latest hcons hp ht]
  have hrr : ∀ X : List (String × Release),
      (({ preDoc raw ty entry with releases := some X } : VersionInfo).releases.getD []) = X :=
    fun X => rfl
  rw [hrr]
  refine ⟨rfl, rfl, ht, rfl, rfl, ?_, ?_, ?_, ?_, ?_, ?_⟩
  · intro h
    show (match ri.technical with
          | none => latest.technical
          | some ts => some (mergeNoDup (latest.technical.getD []) ts)) = latest.technical
    rw [h]
  · intro ts h
    show (match ri.technical with
          | none => latest.technical
          | some ts => some (mergeNoDup (latest.technical.getD []) ts))
        = some (latest.technical.getD [] ++
            ts.filter (fun c => !((latest.technical.getD []).contains c)))
    rw [h]
    rfl
  · exact congrArg some (calculateImpactScore_update_score _ _).symm
  · by_cases hlv : lk = (preDoc raw ty entry).version
    · rw [if_pos hlv, ← hlv]
      exact recGet_recSet_self _ _ _
    · rw [if_neg hlv]
      rw [recGet_recDelete_ne _ _ _ (fun he => hlv he.symm)]
      exact recGet_recSet_self _ _ _
  · intro hlv
    rw [if_neg hlv]
    exact recGet_recDelete_self _ _
  · intro e he htitle
    by_cases hlv : lk = (preDoc raw ty entry).version
    · rw [if_pos hlv] at he
      rcases mem_recSet_nodup hnd he with h | ⟨hmem, hne⟩
      · rw [h, hlv]
      · exact absurd (huniq e hmem htitle) hne
    · rw [if_neg hlv] at he
      obtain ⟨he, hekey⟩ := (mem_recDelete _ _ _).1 he
      rcases mem_recSet_nodup (recSet_nodup _ _ _ hnd) he with h | ⟨hmem, _⟩
      · exact h
      · rcases mem_recSet_nodup hnd hmem with h | ⟨hmem2, _⟩
        · exact absurd (congrArg Prod.fst h) hekey
        · exact absurd (huniq e hmem2 htitle) hekey

/-- Witness for C1's amended theorem on the spec's own consolidation
example (one release "Fix login" with changes ["A"], consolidated with
changes ["A", "B"]). -/
theorem updateVersion_consolidate_amended_witness :
    consRI.consolidateWithPrevious = true ∧
    pickLatest dtSample (relsOf sampleConsDoc) = some ("0.01.012.000", consR1) ∧
    consR1.title = consRI.title ∧
    recGet ((updateVersionModel dtSample "2025-02-02T00:00:00.000Z" sampleConsDoc IncType.build
        "e" (some consRI)).releases.getD []) "0.01.012.001"
      = some (consolidatedRelease consR1 consRI "0.01.012.001" "2025-02-02T00:00:00.000Z") :=
  ⟨rfl, by decide, rfl,
   (updateVersion_consolidate_amended dtSample "2025-02-02T00:00:00.000Z" sampleConsDoc
      IncType.build "e" consRI "0.01.012.000" consR1 rfl (by decide) rfl
      (by decide)).2.2.2.2.2.2.2.2.1⟩

end Foundation
